import Mathlib

/-!
# A verification of the `safebuffer` resizable byte buffer

This file shallowly embeds the Go package `safebuffer` (file `safebuffer.go`)
into Lean 4 and proves properties of its operations.

Modelling choices:
* A Go byte slice (`[]byte`) is a `List Nat`, each element being the byte's
  value (writes always store values `< 256`).
* Go `copy(dst, src)` is `goCopy dst src`: it overwrites the first
  `min |dst| |src|` elements of `dst` with the corresponding elements of
  `src` and leaves the rest of `dst` unchanged.  Go's `copy` has memmove
  semantics (the source and destination may overlap, and the result is as if
  the source were read first), which the functional model gives for free.
* Writing into a sub-slice, Go `copy(buf[off:], p)`, is `writeAt buf off p`.
* Go `int` arguments that can be negative on the API surface (`maxSize` of
  `ReadInto`, `length` of `SubBuffer`) are `Int`; the internal cursor
  (`offset`) only ever has non-negative values and is a `Nat`.
* Mutation of the receiver is explicit state passing: each method returns
  the updated buffer.  `ReadInto` and `SubBuffer`, which in Go return a
  value *and* mutate the receiver, here return the value paired with the
  updated receiver.
* An `io.Reader` is a function from the length of the slice handed to
  `Read` to the list of bytes it writes into that slice's prefix paired
  with the error value it returns; the count `n` Go receives back is the
  length of that list.  A well-behaved reader never writes more bytes than
  the slice it was handed can hold.
-/

namespace SafeBuffer

/-- Go `copy(dst, src)`: overwrite the first `min |dst| |src|` elements of
`dst` with those of `src`, keeping the tail of `dst`. -/
def goCopy (dst src : List Nat) : List Nat :=
  src.take dst.length ++ dst.drop src.length

/-- Go `copy(buf[off:], p)`: write `p` into `buf` starting at index `off`,
in place, truncating whatever does not fit. -/
def writeAt (buf : List Nat) (off : Nat) (p : List Nat) : List Nat :=
  buf.take off ++ goCopy (buf.drop off) p

/-- Go `clear(buf[:k])`: zero the first `k` bytes of `buf`. -/
def goClear (buf : List Nat) (k : Nat) : List Nat :=
  List.replicate (min k buf.length) 0 ++ buf.drop k

/-- The state of `ResizableBuffer`: a byte store and a write cursor. -/
structure ResizableBuffer where
  buffer : List Nat
  offset : Nat
  deriving Repr, DecidableEq

/-- `NewResizableBuffer(b)`: a nil slice is replaced by an empty one; the
supplied bytes become the store and the cursor starts at `0`. -/
def NewResizableBuffer (b : Option (List Nat)) : ResizableBuffer :=
  { buffer := b.getD [], offset := 0 }

/-- `ensureCapacity(n)`: if the spare tail capacity `len(buffer) - offset`
is below `n`, allocate a fresh zeroed store of size `n + len(buffer)` and
copy the old store into its prefix. -/
def ensureCapacity (b : ResizableBuffer) (n : Nat) : ResizableBuffer :=
  if (b.buffer.length : Int) - (b.offset : Int) < (n : Int) then
    { b with buffer := goCopy (List.replicate (n + b.buffer.length) 0) b.buffer }
  else b

/-- `CopyBytes(p)`: append the bytes `p` at the cursor. -/
def CopyBytes (b : ResizableBuffer) (p : List Nat) : ResizableBuffer :=
  let b := ensureCapacity b p.length
  { buffer := writeAt b.buffer b.offset p, offset := b.offset + p.length }

/-- `CopyString(p)`: append the string's bytes at the cursor (a Go string
is its underlying byte sequence). -/
def CopyString (b : ResizableBuffer) (p : List Nat) : ResizableBuffer :=
  let b := ensureCapacity b p.length
  { buffer := writeAt b.buffer b.offset p, offset := b.offset + p.length }

/-- `Byte(bt)`: append a single byte (`b.buffer[b.offset] = bt`). -/
def Byte (b : ResizableBuffer) (bt : Nat) : ResizableBuffer :=
  let b := ensureCapacity b 1
  { buffer := b.buffer.set b.offset bt, offset := b.offset + 1 }

/-- `CRLF()`: append the two bytes `0x0D 0x0A`. -/
def CRLF (b : ResizableBuffer) : ResizableBuffer :=
  let b := ensureCapacity b 2
  { buffer := (b.buffer.set b.offset 13).set (b.offset + 1) 10,
    offset := b.offset + 2 }

/-- The two bytes `binary.LittleEndian.PutUint16` / `binary.BigEndian.PutUint16`
write for the value `v`: `byte(v)` is `v % 256` and `byte(v >> 8)` is
`v / 256 % 256`. -/
def putUint16 (littleEndian : Bool) (v : Nat) : List Nat :=
  if littleEndian then [v % 256, v / 256 % 256]
  else [v / 256 % 256, v % 256]

/-- The four bytes `PutUint32` writes for `v`, in the chosen order. -/
def putUint32 (littleEndian : Bool) (v : Nat) : List Nat :=
  if littleEndian then
    [v % 256, v / 256 % 256, v / 65536 % 256, v / 16777216 % 256]
  else
    [v / 16777216 % 256, v / 65536 % 256, v / 256 % 256, v % 256]

/-- The eight bytes `PutUint64` writes for `v`, in the chosen order. -/
def putUint64 (littleEndian : Bool) (v : Nat) : List Nat :=
  if littleEndian then
    [v % 256, v / 256 % 256, v / 65536 % 256, v / 16777216 % 256,
     v / 4294967296 % 256, v / 1099511627776 % 256,
     v / 281474976710656 % 256, v / 72057594037927936 % 256]
  else
    [v / 72057594037927936 % 256, v / 281474976710656 % 256,
     v / 1099511627776 % 256, v / 4294967296 % 256,
     v / 16777216 % 256, v / 65536 % 256, v / 256 % 256, v % 256]

/-- `Uint16(v, littleEndian)`: append `v` as two bytes in the chosen order. -/
def Uint16 (b : ResizableBuffer) (v : Nat) (littleEndian : Bool) : ResizableBuffer :=
  let b := ensureCapacity b 2
  { buffer := writeAt b.buffer b.offset (putUint16 littleEndian v),
    offset := b.offset + 2 }

/-- `Uint32(v, littleEndian)`: append `v` as four bytes in the chosen order. -/
def Uint32 (b : ResizableBuffer) (v : Nat) (littleEndian : Bool) : ResizableBuffer :=
  let b := ensureCapacity b 4
  { buffer := writeAt b.buffer b.offset (putUint32 littleEndian v),
    offset := b.offset + 4 }

/-- `Uint64(v, littleEndian)`: append `v` as eight bytes in the chosen order. -/
def Uint64 (b : ResizableBuffer) (v : Nat) (littleEndian : Bool) : ResizableBuffer :=
  let b := ensureCapacity b 8
  { buffer := writeAt b.buffer b.offset (putUint64 littleEndian v),
    offset := b.offset + 8 }

/-- Go `uint16(v)` for a signed 16-bit `v`: the two's-complement bit
pattern, i.e. `v mod 2^16` taken non-negative. -/
def toUint16 (v : Int) : Nat := (v.emod 65536).toNat

/-- Go `uint32(v)` for a signed 32-bit `v`. -/
def toUint32 (v : Int) : Nat := (v.emod 4294967296).toNat

/-- Go `uint64(v)` for a signed 64-bit `v`. -/
def toUint64 (v : Int) : Nat := (v.emod 18446744073709551616).toNat

/-- `Int16(v, littleEndian)`: delegates to `Uint16` on the bit pattern. -/
def Int16 (b : ResizableBuffer) (v : Int) (littleEndian : Bool) : ResizableBuffer :=
  Uint16 b (toUint16 v) littleEndian

/-- `Int32(v, littleEndian)`: delegates to `Uint32` on the bit pattern. -/
def Int32 (b : ResizableBuffer) (v : Int) (littleEndian : Bool) : ResizableBuffer :=
  Uint32 b (toUint32 v) littleEndian

/-- `Int64(v, littleEndian)`: delegates to `Uint64` on the bit pattern. -/
def Int64 (b : ResizableBuffer) (v : Int) (littleEndian : Bool) : ResizableBuffer :=
  Uint64 b (toUint64 v) littleEndian

/-- `Float32(v, littleEndian)`: Go reinterprets the IEEE-754 bit pattern via
`math.Float32bits` and delegates to `Uint32`.  The embedding takes the bit
pattern itself (a 32-bit `Nat`) as the argument. -/
def Float32bitsWrite (b : ResizableBuffer) (bits : Nat) (littleEndian : Bool) : ResizableBuffer :=
  Uint32 b bits littleEndian

/-- `Float64(v, littleEndian)`: as `Float32`, via `math.Float64bits`. -/
def Float64bitsWrite (b : ResizableBuffer) (bits : Nat) (littleEndian : Bool) : ResizableBuffer :=
  Uint64 b bits littleEndian

/-- `Bytes()`: the consumed prefix `buffer[:offset]`. -/
def Bytes (b : ResizableBuffer) : List Nat := b.buffer.take b.offset

/-- `Len()`: the cursor. -/
def Len (b : ResizableBuffer) : Nat := b.offset

/-- `prependStart(n, f)`: make room for `n` bytes at the head.  If the spare
tail capacity is below `n`, allocate a store of size `n + len(buffer)` and
copy the old store in at offset `n` (`copy(buf[n:], b.buffer)`); otherwise
shift the whole store right by `n` in place (`copy(b.buffer[n:], b.buffer)`).
Then run `f` on the store (the callers use it to write the new head bytes)
and advance the cursor by `n`. -/
def prependStart (b : ResizableBuffer) (n : Nat) (f : List Nat → List Nat) :
    ResizableBuffer :=
  let buf :=
    if (b.buffer.length : Int) - (b.offset : Int) < (n : Int) then
      writeAt (List.replicate (n + b.buffer.length) 0) n b.buffer
    else
      writeAt b.buffer n b.buffer
  { buffer := f buf, offset := b.offset + n }

/-- `PrependBytes(v)`: insert `v` before the content (`copy(b, v)`). -/
def PrependBytes (b : ResizableBuffer) (v : List Nat) : ResizableBuffer :=
  prependStart b v.length (fun b => goCopy b v)

/-- `PrependByte(v)`: insert one byte before the content (`b[0] = v`). -/
def PrependByte (b : ResizableBuffer) (v : Nat) : ResizableBuffer :=
  prependStart b 1 (fun b => b.set 0 v)

/-- `PrependString(v)`: insert the string's bytes before the content. -/
def PrependString (b : ResizableBuffer) (v : List Nat) : ResizableBuffer :=
  prependStart b v.length (fun b => goCopy b v)

/-- `PrependUint16(v, littleEndian)`. -/
def PrependUint16 (b : ResizableBuffer) (v : Nat) (littleEndian : Bool) :
    ResizableBuffer :=
  prependStart b 2 (fun b => writeAt b 0 (putUint16 littleEndian v))

/-- `PrependUint32(v, littleEndian)`. -/
def PrependUint32 (b : ResizableBuffer) (v : Nat) (littleEndian : Bool) :
    ResizableBuffer :=
  prependStart b 4 (fun b => writeAt b 0 (putUint32 littleEndian v))

/-- `PrependUint64(v, littleEndian)`. -/
def PrependUint64 (b : ResizableBuffer) (v : Nat) (littleEndian : Bool) :
    ResizableBuffer :=
  prependStart b 8 (fun b => writeAt b 0 (putUint64 littleEndian v))

/-- `PrependInt16(v, littleEndian)`: via the unsigned bit pattern. -/
def PrependInt16 (b : ResizableBuffer) (v : Int) (littleEndian : Bool) :
    ResizableBuffer :=
  PrependUint16 b (toUint16 v) littleEndian

/-- `PrependInt32(v, littleEndian)`. -/
def PrependInt32 (b : ResizableBuffer) (v : Int) (littleEndian : Bool) :
    ResizableBuffer :=
  PrependUint32 b (toUint32 v) littleEndian

/-- `PrependInt64(v, littleEndian)`. -/
def PrependInt64 (b : ResizableBuffer) (v : Int) (littleEndian : Bool) :
    ResizableBuffer :=
  PrependUint64 b (toUint64 v) littleEndian

/-- `PrependFloat32`: the IEEE-754 bit pattern, prepended via `PrependUint32`. -/
def PrependFloat32bits (b : ResizableBuffer) (bits : Nat) (littleEndian : Bool) :
    ResizableBuffer :=
  PrependUint32 b bits littleEndian

/-- `PrependFloat64`: via `PrependUint64`. -/
def PrependFloat64bits (b : ResizableBuffer) (bits : Nat) (littleEndian : Bool) :
    ResizableBuffer :=
  PrependUint64 b bits littleEndian

/-- `Reset(zeroOut)`: optionally zero `buffer[:offset]`, then reset the
cursor to `0`.  The store itself is kept. -/
def Reset (b : ResizableBuffer) (zeroOut : Bool) : ResizableBuffer :=
  { buffer := if zeroOut then goClear b.buffer b.offset else b.buffer,
    offset := 0 }

/-- `ReadInto(r, maxSize)`: if `maxSize > 0` ensure capacity for it,
otherwise bound the read by the existing spare tail capacity.  Hand the
reader the window `buffer[offset : offset+bound]`; it fills some prefix of
it and returns an error value.  Advance the cursor by the count read and
return the filled chunk `buffer[offset : offset+n]` alongside the error. -/
def ReadInto {ε : Type} (b : ResizableBuffer) (r : Nat → List Nat × Option ε)
    (maxSize : Int) : (List Nat × Option ε) × ResizableBuffer :=
  let b := if maxSize > 0 then ensureCapacity b maxSize.toNat else b
  let bound : Nat := if maxSize > 0 then maxSize.toNat
    else b.buffer.length - b.offset
  let res := r bound
  let n := res.1.length
  let buf := writeAt b.buffer b.offset (res.1.take bound)
  let chunk := (buf.drop b.offset).take n
  ((chunk, res.2), { buffer := buf, offset := b.offset + n })

/-- `SubBuffer(length)`: a negative request means the remaining spare
capacity.  Ensure the parent can hold `length` more bytes, carve out the
window `buffer[offset : offset+length]` as a fresh buffer with cursor `0`,
and advance the parent's cursor past it.  Returns (sub-buffer, updated
parent); in Go the sub-buffer's store aliases the parent's window. -/
def SubBuffer (b : ResizableBuffer) (length : Int) :
    ResizableBuffer × ResizableBuffer :=
  let len : Nat := if length < 0 then b.buffer.length - b.offset
    else length.toNat
  let b := ensureCapacity b len
  let s := (b.buffer.drop b.offset).take len
  ({ buffer := s, offset := 0 }, { buffer := b.buffer, offset := b.offset + len })

/-- The state invariant: the cursor never exceeds the store's length. -/
def Inv (b : ResizableBuffer) : Prop := b.offset ≤ b.buffer.length

instance (b : ResizableBuffer) : Decidable (Inv b) := by
  unfold Inv; infer_instance

/-- The common tail-write shape every append-family operation reduces to:
ensure capacity for `p`, write `p` at the cursor, advance the cursor. -/
def appendBytes (b : ResizableBuffer) (p : List Nat) : ResizableBuffer :=
  let b := ensureCapacity b p.length
  { buffer := writeAt b.buffer b.offset p, offset := b.offset + p.length }

/-- An independent little-endian byte-list decoder, used as the reference
against which the encoders are checked. -/
def decodeLE (l : List Nat) : Nat := l.foldr (fun byte acc => byte + 256 * acc) 0

/-- Decode a byte list under the chosen order. -/
def decodeBytes (littleEndian : Bool) (l : List Nat) : Nat :=
  decodeLE (if littleEndian then l else l.reverse)

/-- The number of bytes `ReadInto` hands the reader: `maxSize` when
positive, otherwise the spare tail capacity. -/
def readBound (b : ResizableBuffer) (maxSize : Int) : Nat :=
  if maxSize > 0 then maxSize.toNat else b.buffer.length - b.offset

/-! ## Basic lemmas about the slice primitives -/

theorem goCopy_length (dst src : List Nat) : (goCopy dst src).length = dst.length := by
  simp [goCopy]; omega

theorem goCopy_of_length_le (dst src : List Nat) (h : src.length ≤ dst.length) :
    goCopy dst src = src ++ dst.drop src.length := by
  simp [goCopy, List.take_of_length_le h]

theorem writeAt_length (buf : List Nat) (off : Nat) (p : List Nat) :
    (writeAt buf off p).length = buf.length := by
  simp [writeAt, goCopy]; omega

theorem writeAt_eq (buf : List Nat) (off : Nat) (p : List Nat)
    (h : off + p.length ≤ buf.length) :
    writeAt buf off p = buf.take off ++ p ++ buf.drop (off + p.length) := by
  unfold writeAt
  rw [goCopy_of_length_le _ _ (by simp; omega), List.drop_drop, List.append_assoc]

theorem writeAt_prefix (buf : List Nat) (off : Nat) (p : List Nat)
    (h : off + p.length ≤ buf.length) :
    (writeAt buf off p).take off = buf.take off := by
  rw [writeAt_eq buf off p h, List.append_assoc,
    List.take_append_of_le_length (by simp; omega), List.take_take]
  simp

theorem writeAt_chunk (buf : List Nat) (off : Nat) (p : List Nat)
    (h : off + p.length ≤ buf.length) :
    ((writeAt buf off p).drop off).take p.length = p := by
  rw [writeAt_eq buf off p h, List.append_assoc,
    List.drop_left' (by simp; omega),
    List.take_append_of_le_length (le_refl _), List.take_of_length_le (le_refl _)]

theorem writeAt_suffix (buf : List Nat) (off : Nat) (p : List Nat)
    (h : off + p.length ≤ buf.length) :
    (writeAt buf off p).drop (off + p.length) = buf.drop (off + p.length) := by
  rw [writeAt_eq buf off p h, List.drop_left' (by simp; omega)]

theorem writeAt_one (buf : List Nat) (off a : Nat) :
    writeAt buf off [a] = buf.set off a := by
  induction buf generalizing off with
  | nil => simp [writeAt, goCopy]
  | cons x xs ih =>
    cases off with
    | zero => cases xs <;> simp [writeAt, goCopy]
    | succ k =>
      have h := ih k
      simp [writeAt, goCopy] at h ⊢
      exact h

theorem writeAt_two (buf : List Nat) (off a c : Nat) :
    writeAt buf off [a, c] = (buf.set off a).set (off + 1) c := by
  induction buf generalizing off with
  | nil => simp [writeAt, goCopy]
  | cons x xs ih =>
    cases off with
    | zero => cases xs <;> simp [writeAt, goCopy]
    | succ k =>
      have h := ih k
      simp [writeAt, goCopy] at h ⊢
      exact h

/-! ## Lemmas about `ensureCapacity` -/

theorem ensureCapacity_eq (b : ResizableBuffer) (n : Nat) :
    ensureCapacity b n =
      if b.buffer.length < b.offset + n then
        { b with buffer := b.buffer ++ List.replicate n 0 }
      else b := by
  unfold ensureCapacity
  by_cases h : b.buffer.length < b.offset + n
  · rw [if_pos (by push_cast; omega), if_pos h]
    have hlen : b.buffer.length ≤ (List.replicate (n + b.buffer.length) (0 : Nat)).length := by
      simp
    rw [goCopy_of_length_le _ _ hlen, List.drop_replicate]
    have harith : n + b.buffer.length - b.buffer.length = n := by omega
    rw [harith]
  · rw [if_neg (by push_cast; omega), if_neg h]

theorem ensureCapacity_offset (b : ResizableBuffer) (n : Nat) :
    (ensureCapacity b n).offset = b.offset := by
  rw [ensureCapacity_eq]; split <;> rfl

theorem ensureCapacity_of_le (b : ResizableBuffer) (n : Nat)
    (h : b.offset + n ≤ b.buffer.length) : ensureCapacity b n = b := by
  rw [ensureCapacity_eq, if_neg (by omega)]

theorem ensureCapacity_length (b : ResizableBuffer) (n : Nat) :
    (ensureCapacity b n).buffer.length =
      if b.buffer.length < b.offset + n then n + b.buffer.length
      else b.buffer.length := by
  rw [ensureCapacity_eq]
  split <;> simp <;> omega

theorem ensureCapacity_spare (b : ResizableBuffer) (n : Nat) (h : Inv b) :
    b.offset + n ≤ (ensureCapacity b n).buffer.length := by
  rw [ensureCapacity_length]
  unfold Inv at h
  split <;> omega

theorem ensureCapacity_take (b : ResizableBuffer) (n k : Nat)
    (h : k ≤ b.buffer.length) :
    (ensureCapacity b n).buffer.take k = b.buffer.take k := by
  rw [ensureCapacity_eq]
  split
  · exact List.take_append_of_le_length h
  · rfl

theorem ensureCapacity_inv (b : ResizableBuffer) (n : Nat) (h : Inv b) :
    Inv (ensureCapacity b n) := by
  unfold Inv at h ⊢
  rw [ensureCapacity_length, ensureCapacity_offset]
  split <;> omega

theorem ensureCapacity_old_prefix (b : ResizableBuffer) (n : Nat) :
    (ensureCapacity b n).buffer.take b.buffer.length = b.buffer := by
  rw [ensureCapacity_take b n _ le_rfl, List.take_length]

theorem goCopy_of_le_length (dst src : List Nat) (h : dst.length ≤ src.length) :
    goCopy dst src = src.take dst.length := by
  simp [goCopy, List.drop_eq_nil_of_le h]

/-! ## Every append-family operation is an instance of `appendBytes` -/

theorem CopyBytes_eq (b : ResizableBuffer) (p : List Nat) :
    CopyBytes b p = appendBytes b p := rfl

theorem CopyString_eq (b : ResizableBuffer) (p : List Nat) :
    CopyString b p = appendBytes b p := rfl

theorem Byte_eq (b : ResizableBuffer) (bt : Nat) :
    Byte b bt = appendBytes b [bt] := by
  simp [Byte, appendBytes, writeAt_one]

theorem CRLF_eq (b : ResizableBuffer) :
    CRLF b = appendBytes b [13, 10] := by
  simp [CRLF, appendBytes, writeAt_two]

theorem Uint16_eq (b : ResizableBuffer) (v : Nat) (le : Bool) :
    Uint16 b v le = appendBytes b (putUint16 le v) := by
  cases le <;> simp [Uint16, appendBytes, putUint16]

theorem Uint32_eq (b : ResizableBuffer) (v : Nat) (le : Bool) :
    Uint32 b v le = appendBytes b (putUint32 le v) := by
  cases le <;> simp [Uint32, appendBytes, putUint32]

theorem Uint64_eq (b : ResizableBuffer) (v : Nat) (le : Bool) :
    Uint64 b v le = appendBytes b (putUint64 le v) := by
  cases le <;> simp [Uint64, appendBytes, putUint64]

/-! ## Properties of `appendBytes` -/

theorem appendBytes_offset (b : ResizableBuffer) (p : List Nat) :
    (appendBytes b p).offset = b.offset + p.length := by
  simp [appendBytes, ensureCapacity_offset]

theorem appendBytes_length (b : ResizableBuffer) (p : List Nat) :
    (appendBytes b p).buffer.length =
      if b.buffer.length < b.offset + p.length then p.length + b.buffer.length
      else b.buffer.length := by
  simp [appendBytes, writeAt_length, ensureCapacity_length]

theorem appendBytes_inv (b : ResizableBuffer) (p : List Nat) (h : Inv b) :
    Inv (appendBytes b p) := by
  unfold Inv at h ⊢
  rw [appendBytes_offset, appendBytes_length]
  split <;> omega

theorem appendBytes_prefix (b : ResizableBuffer) (p : List Nat) (h : Inv b) :
    (appendBytes b p).buffer.take b.offset = b.buffer.take b.offset := by
  have hsp := ensureCapacity_spare b p.length h
  show (writeAt (ensureCapacity b p.length).buffer
      (ensureCapacity b p.length).offset p).take b.offset = _
  rw [ensureCapacity_offset, writeAt_prefix _ _ _ hsp,
    ensureCapacity_take _ _ _ h]

theorem appendBytes_written (b : ResizableBuffer) (p : List Nat) (h : Inv b) :
    ((appendBytes b p).buffer.drop b.offset).take p.length = p := by
  have hsp := ensureCapacity_spare b p.length h
  show ((writeAt (ensureCapacity b p.length).buffer
      (ensureCapacity b p.length).offset p).drop b.offset).take p.length = _
  rw [ensureCapacity_offset, writeAt_chunk _ _ _ hsp]

/-! ## Every prepend-family operation is an instance of one write shape -/

/-- The head-write callback every prepend operation passes to
`prependStart` writes some byte list `p` at the front of the store. -/
theorem PrependBytes_eq (b : ResizableBuffer) (v : List Nat) :
    PrependBytes b v = prependStart b v.length (fun buf => writeAt buf 0 v) := rfl

theorem PrependString_eq (b : ResizableBuffer) (v : List Nat) :
    PrependString b v = prependStart b v.length (fun buf => writeAt buf 0 v) := rfl

theorem PrependByte_eq (b : ResizableBuffer) (v : Nat) :
    PrependByte b v = prependStart b 1 (fun buf => writeAt buf 0 [v]) := by
  simp [PrependByte, prependStart, writeAt_one]

theorem PrependUint16_eq (b : ResizableBuffer) (v : Nat) (le : Bool) :
    PrependUint16 b v le =
      prependStart b (putUint16 le v).length
        (fun buf => writeAt buf 0 (putUint16 le v)) := by
  cases le <;> rfl

theorem PrependUint32_eq (b : ResizableBuffer) (v : Nat) (le : Bool) :
    PrependUint32 b v le =
      prependStart b (putUint32 le v).length
        (fun buf => writeAt buf 0 (putUint32 le v)) := by
  cases le <;> rfl

theorem PrependUint64_eq (b : ResizableBuffer) (v : Nat) (le : Bool) :
    PrependUint64 b v le =
      prependStart b (putUint64 le v).length
        (fun buf => writeAt buf 0 (putUint64 le v)) := by
  cases le <;> rfl

/-! ## Properties of the head-shift-and-write shape -/

theorem prependStart_spec (b : ResizableBuffer) (p : List Nat) (hInv : Inv b) :
    prependStart b p.length (fun buf => writeAt buf 0 p) =
      if b.buffer.length < b.offset + p.length then
        { buffer := p ++ b.buffer, offset := b.offset + p.length }
      else
        { buffer := p ++ b.buffer.take (b.buffer.length - p.length),
          offset := b.offset + p.length } := by
  unfold Inv at hInv
  unfold prependStart
  by_cases hg : b.buffer.length < b.offset + p.length
  · rw [if_pos (by push_cast; omega), if_pos hg]
    have h1 : writeAt (List.replicate (p.length + b.buffer.length) 0) p.length
        b.buffer = List.replicate p.length 0 ++ b.buffer := by
      rw [writeAt_eq _ _ _ (by simp), List.take_replicate, List.drop_replicate]
      simp
    rw [h1]
    show ResizableBuffer.mk
      (writeAt (List.replicate p.length 0 ++ b.buffer) 0 p)
      (b.offset + p.length) = _
    rw [writeAt_eq _ _ _ (by simp), List.drop_left' (by simp)]
    simp
  · rw [if_neg (by push_cast; omega), if_neg hg]
    have hnC : p.length ≤ b.buffer.length := by omega
    have h1 : writeAt b.buffer p.length b.buffer =
        b.buffer.take p.length ++ b.buffer.take (b.buffer.length - p.length) := by
      unfold writeAt
      rw [goCopy_of_le_length _ _ (by simp)]
      simp
    rw [h1]
    show ResizableBuffer.mk
      (writeAt (b.buffer.take p.length ++
        b.buffer.take (b.buffer.length - p.length)) 0 p)
      (b.offset + p.length) = _
    rw [writeAt_eq _ _ _ (by simp; omega),
      List.drop_left' (by simp; omega)]
    simp

theorem prependStart_offset (b : ResizableBuffer) (n : Nat)
    (f : List Nat → List Nat) : (prependStart b n f).offset = b.offset + n := rfl

theorem prependWrite_inv (b : ResizableBuffer) (p : List Nat) (hInv : Inv b) :
    Inv (prependStart b p.length (fun buf => writeAt buf 0 p)) := by
  rw [prependStart_spec b p hInv]
  unfold Inv at hInv ⊢
  split <;> simp <;> omega

theorem prependWrite_content (b : ResizableBuffer) (p : List Nat) (hInv : Inv b) :
    Bytes (prependStart b p.length (fun buf => writeAt buf 0 p)) = p ++ Bytes b := by
  rw [prependStart_spec b p hInv]
  unfold Inv at hInv
  unfold Bytes
  by_cases hg : b.buffer.length < b.offset + p.length
  · rw [if_pos hg]
    show (p ++ b.buffer).take (b.offset + p.length) = _
    rw [Nat.add_comm b.offset p.length, List.take_append_eq_append_take]
    congr 1
    · exact List.take_of_length_le (by omega)
    · congr 1
      omega
  · rw [if_neg hg]
    show (p ++ b.buffer.take (b.buffer.length - p.length)).take
        (b.offset + p.length) = _
    rw [Nat.add_comm b.offset p.length, List.take_append_eq_append_take]
    congr 1
    · exact List.take_of_length_le (by omega)
    · rw [List.take_take]
      congr 1
      omega

/-! ## The fixed-width encodings round-trip through the reference decoder -/

theorem decode_putUint16 (le : Bool) (v : Nat) (h : v < 65536) :
    decodeBytes le (putUint16 le v) = v := by
  cases le <;> simp [decodeBytes, decodeLE, putUint16] <;> omega

theorem decode_putUint32 (le : Bool) (v : Nat) (h : v < 4294967296) :
    decodeBytes le (putUint32 le v) = v := by
  cases le <;> simp [decodeBytes, decodeLE, putUint32] <;> omega

theorem decode_putUint64 (le : Bool) (v : Nat) (h : v < 18446744073709551616) :
    decodeBytes le (putUint64 le v) = v := by
  cases le <;> simp [decodeBytes, decodeLE, putUint64] <;> omega

/-! ## Properties of `Reset` -/

theorem Reset_offset (b : ResizableBuffer) (zo : Bool) : (Reset b zo).offset = 0 := rfl

theorem Reset_false_buffer (b : ResizableBuffer) : (Reset b false).buffer = b.buffer := rfl

theorem Reset_length (b : ResizableBuffer) (zo : Bool) :
    (Reset b zo).buffer.length = b.buffer.length := by
  cases zo
  · rfl
  · simp [Reset, goClear]
    omega

theorem Reset_true_zero (b : ResizableBuffer) (hInv : Inv b) (i : Nat)
    (hi : i < b.offset) : (Reset b true).buffer.getD i 0 = 0 := by
  unfold Inv at hInv
  simp only [Reset, if_true, goClear, List.getD_eq_getElem?_getD,
    List.getElem?_append, List.length_replicate, List.getElem?_replicate]
  rw [if_pos (by omega), if_pos (by omega)]
  rfl

theorem Reset_beyond (b : ResizableBuffer) (hInv : Inv b) (zo : Bool) (i : Nat)
    (hi : b.offset ≤ i) : (Reset b zo).buffer.getD i 0 = b.buffer.getD i 0 := by
  cases zo
  · rfl
  · unfold Inv at hInv
    simp only [Reset, if_true, goClear, List.getD_eq_getElem?_getD,
      List.getElem?_append, List.length_replicate, List.getElem?_replicate,
      List.getElem?_drop]
    rw [if_neg (by omega)]
    congr 2
    omega

/-! ## Properties of `ReadInto` -/

theorem ReadInto_pos_eq {ε : Type} (b : ResizableBuffer)
    (r : Nat → List Nat × Option ε) (m : Int) (hm : m > 0) (hInv : Inv b)
    (hk : (r m.toNat).1.length ≤ m.toNat) :
    ReadInto b r m =
      (((r m.toNat).1, (r m.toNat).2),
       { buffer := writeAt (ensureCapacity b m.toNat).buffer b.offset
           (r m.toNat).1,
         offset := b.offset + (r m.toNat).1.length }) := by
  have hsp : b.offset + (r m.toNat).1.length ≤
      (ensureCapacity b m.toNat).buffer.length := by
    have := ensureCapacity_spare b m.toNat hInv
    omega
  simp only [ReadInto, if_pos hm, ensureCapacity_offset]
  rw [List.take_of_length_le hk, writeAt_chunk _ _ _ hsp]

theorem ReadInto_nonpos_eq {ε : Type} (b : ResizableBuffer)
    (r : Nat → List Nat × Option ε) (m : Int) (hm : ¬(m > 0)) (hInv : Inv b)
    (hk : (r (b.buffer.length - b.offset)).1.length ≤
      b.buffer.length - b.offset) :
    ReadInto b r m =
      (((r (b.buffer.length - b.offset)).1,
        (r (b.buffer.length - b.offset)).2),
       { buffer := writeAt b.buffer b.offset
           (r (b.buffer.length - b.offset)).1,
         offset := b.offset + (r (b.buffer.length - b.offset)).1.length }) := by
  unfold Inv at hInv
  simp only [ReadInto, if_neg hm]
  rw [List.take_of_length_le hk, writeAt_chunk _ _ _ (by omega)]

/-! ## Properties of `SubBuffer` -/

theorem SubBuffer_nonneg_eq (b : ResizableBuffer) (L : Int) (hL : ¬(L < 0)) :
    SubBuffer b L =
      ({ buffer := ((ensureCapacity b L.toNat).buffer.drop b.offset).take L.toNat,
         offset := 0 },
       { buffer := (ensureCapacity b L.toNat).buffer,
         offset := b.offset + L.toNat }) := by
  simp only [SubBuffer, if_neg hL, ensureCapacity_offset]

theorem SubBuffer_neg_eq (b : ResizableBuffer) (L : Int) (hL : L < 0)
    (hInv : Inv b) :
    SubBuffer b L =
      ({ buffer := b.buffer.drop b.offset, offset := 0 },
       { buffer := b.buffer, offset := b.buffer.length }) := by
  unfold Inv at hInv
  simp only [SubBuffer, if_pos hL]
  rw [ensureCapacity_of_le _ _ (by omega), List.take_of_length_le (by simp)]
  simp only [Prod.mk.injEq, ResizableBuffer.mk.injEq, and_true, true_and]
  omega

theorem writeAt_nil (buf : List Nat) (off : Nat) : writeAt buf off [] = buf := by
  simp [writeAt, goCopy]

/-! ## Claims -/

/-- C1: for every buffer state satisfying the invariant and every
append-family write of `n` bytes: if the spare tail capacity `C - cursor`
is at least `n` the storage is not reallocated (`ensureCapacity` leaves the
buffer untouched and the capacity is preserved); otherwise the new store
has size exactly `n + C` (the requested increment plus the old capacity,
no doubling) and the old storage is its prefix.  In both cases the `n` new
bytes land at `storage[cursor:cursor+n]`, the cursor grows by exactly `n`,
and the previously-written prefix `storage[0:old cursor]` is unchanged.
`CopyBytes`, `CopyString`, `Byte`, `CRLF` and the fixed-width encoders are
all instances of the common shape `appendBytes`. -/
theorem C1_append_tail_grow (b : ResizableBuffer) (p : List Nat)
    (hInv : Inv b) :
    (b.offset + p.length ≤ b.buffer.length →
      ensureCapacity b p.length = b ∧
      (appendBytes b p).buffer.length = b.buffer.length) ∧
    (b.buffer.length < b.offset + p.length →
      (appendBytes b p).buffer.length = p.length + b.buffer.length ∧
      (ensureCapacity b p.length).buffer.take b.buffer.length = b.buffer) ∧
    ((appendBytes b p).buffer.drop b.offset).take p.length = p ∧
    (appendBytes b p).offset = b.offset + p.length ∧
    (appendBytes b p).buffer.take b.offset = b.buffer.take b.offset ∧
    (∀ q : List Nat, CopyBytes b q = appendBytes b q) ∧
    (∀ q : List Nat, CopyString b q = appendBytes b q) ∧
    (∀ bt : Nat, Byte b bt = appendBytes b [bt]) ∧
    CRLF b = appendBytes b [13, 10] ∧
    (∀ v le, Uint16 b v le = appendBytes b (putUint16 le v)) ∧
    (∀ v le, Uint32 b v le = appendBytes b (putUint32 le v)) ∧
    (∀ v le, Uint64 b v le = appendBytes b (putUint64 le v)) := by
  refine ⟨?_, ?_, appendBytes_written b p hInv, appendBytes_offset b p,
    appendBytes_prefix b p hInv, fun q => CopyBytes_eq b q,
    fun q => CopyString_eq b q, fun bt => Byte_eq b bt, CRLF_eq b,
    fun v le => Uint16_eq b v le, fun v le => Uint32_eq b v le,
    fun v le => Uint64_eq b v le⟩
  · intro h
    refine ⟨ensureCapacity_of_le b p.length h, ?_⟩
    rw [appendBytes_length, if_neg (by omega)]
  · intro h
    refine ⟨?_, ensureCapacity_old_prefix b p.length⟩
    rw [appendBytes_length, if_pos h]

/-- Witness for C1: a two-byte append into one spare byte grows the store
to exactly `2 + 3` bytes and writes the bytes at the old cursor. -/
theorem C1_append_tail_grow_witness :
    Inv ({ buffer := [1, 2, 3], offset := 2 } : ResizableBuffer) ∧
    (appendBytes { buffer := [1, 2, 3], offset := 2 } [9, 8]).buffer.length
      = 2 + 3 ∧
    ((appendBytes { buffer := [1, 2, 3], offset := 2 } [9, 8]).buffer.drop
      2).take 2 = [9, 8] := by
  have h := C1_append_tail_grow { buffer := [1, 2, 3], offset := 2 } [9, 8]
    (by decide)
  exact ⟨by decide, (h.2.1 (by decide)).1, h.2.2.1⟩

/-- C2: for every buffer state with logical content `s`, prepending `n`
bytes `p` makes the logical content `p ++ s` and advances the cursor by
exactly `n`, for every member of the prepend family; prepending `v1` then
`v2` puts `v2`'s bytes immediately before `v1`'s at the front. -/
theorem C2_prepend_content (b : ResizableBuffer) (hInv : Inv b) :
    (∀ v : List Nat, Bytes (PrependBytes b v) = v ++ Bytes b ∧
      (PrependBytes b v).offset = b.offset + v.length) ∧
    (∀ v : List Nat, Bytes (PrependString b v) = v ++ Bytes b ∧
      (PrependString b v).offset = b.offset + v.length) ∧
    (∀ a : Nat, Bytes (PrependByte b a) = a :: Bytes b ∧
      (PrependByte b a).offset = b.offset + 1) ∧
    (∀ v le, Bytes (PrependUint16 b v le) = putUint16 le v ++ Bytes b) ∧
    (∀ v le, Bytes (PrependUint32 b v le) = putUint32 le v ++ Bytes b) ∧
    (∀ v le, Bytes (PrependUint64 b v le) = putUint64 le v ++ Bytes b) ∧
    (∀ v1 v2 : List Nat,
      Bytes (PrependBytes (PrependBytes b v1) v2) = v2 ++ (v1 ++ Bytes b)) := by
  refine ⟨?_, ?_, ?_, ?_, ?_, ?_, ?_⟩
  · intro v
    rw [PrependBytes_eq]
    exact ⟨prependWrite_content b v hInv, prependStart_offset b v.length _⟩
  · intro v
    rw [PrependString_eq]
    exact ⟨prependWrite_content b v hInv, prependStart_offset b v.length _⟩
  · intro a
    rw [PrependByte_eq]
    have h := prependWrite_content b [a] hInv
    simp only [List.length_cons, List.length_nil] at h
    exact ⟨by rw [h]; rfl, prependStart_offset b 1 _⟩
  · intro v le
    rw [PrependUint16_eq]
    exact prependWrite_content b (putUint16 le v) hInv
  · intro v le
    rw [PrependUint32_eq]
    exact prependWrite_content b (putUint32 le v) hInv
  · intro v le
    rw [PrependUint64_eq]
    exact prependWrite_content b (putUint64 le v) hInv
  · intro v1 v2
    have hInv1 : Inv (PrependBytes b v1) := by
      rw [PrependBytes_eq]; exact prependWrite_inv b v1 hInv
    have h2 : Bytes (PrependBytes (PrependBytes b v1) v2)
        = v2 ++ Bytes (PrependBytes b v1) := by
      rw [PrependBytes_eq (PrependBytes b v1) v2]
      exact prependWrite_content _ v2 hInv1
    have h1 : Bytes (PrependBytes b v1) = v1 ++ Bytes b := by
      rw [PrependBytes_eq b v1]
      exact prependWrite_content b v1 hInv
    rw [h2, h1]

/-- Witness for C2: prepending `[7]` then `[8, 9]` onto content `[1]`
yields content `[8, 9, 7, 1]`. -/
theorem C2_prepend_content_witness :
    Inv ({ buffer := [1, 2, 3], offset := 1 } : ResizableBuffer) ∧
    Bytes (PrependBytes (PrependBytes { buffer := [1, 2, 3], offset := 1 }
      [7]) [8, 9]) = [8, 9, 7, 1] := by
  have h := C2_prepend_content { buffer := [1, 2, 3], offset := 1 } (by decide)
  refine ⟨by decide, ?_⟩
  rw [h.2.2.2.2.2.2 [7] [8, 9]]
  decide

/-- C3: appending an unsigned value of width 16, 32 or 64 bits in either
byte order and decoding the bytes just written at the old cursor with an
independent decoder of the same order reconstructs the value. -/
theorem C3_roundtrip (b : ResizableBuffer) (hInv : Inv b) :
    (∀ v le, v < 2 ^ 16 →
      decodeBytes le (((Uint16 b v le).buffer.drop b.offset).take 2) = v) ∧
    (∀ v le, v < 2 ^ 32 →
      decodeBytes le (((Uint32 b v le).buffer.drop b.offset).take 4) = v) ∧
    (∀ v le, v < 2 ^ 64 →
      decodeBytes le (((Uint64 b v le).buffer.drop b.offset).take 8) = v) := by
  refine ⟨?_, ?_, ?_⟩
  · intro v le hv
    have hlen : (putUint16 le v).length = 2 := by cases le <;> rfl
    rw [Uint16_eq, ← hlen, appendBytes_written b _ hInv]
    exact decode_putUint16 le v (by omega)
  · intro v le hv
    have hlen : (putUint32 le v).length = 4 := by cases le <;> rfl
    rw [Uint32_eq, ← hlen, appendBytes_written b _ hInv]
    exact decode_putUint32 le v (by omega)
  · intro v le hv
    have hlen : (putUint64 le v).length = 8 := by cases le <;> rfl
    rw [Uint64_eq, ← hlen, appendBytes_written b _ hInv]
    exact decode_putUint64 le v (by omega)

/-- Witness for C3: the spec's concrete scenario, `0x0102` little- and
big-endian from the empty buffer. -/
theorem C3_roundtrip_witness :
    Inv ({ buffer := [], offset := 0 } : ResizableBuffer) ∧
    decodeBytes true
      (((Uint16 { buffer := [], offset := 0 } 258 true).buffer.drop 0).take 2)
      = 258 ∧
    decodeBytes false
      (((Uint16 { buffer := [], offset := 0 } 258 false).buffer.drop 0).take 2)
      = 258 := by
  have h := C3_roundtrip { buffer := [], offset := 0 } (by decide)
  exact ⟨by decide, h.1 258 true (by norm_num), h.1 258 false (by norm_num)⟩

/-- C4: `Reset` keeps the store (same capacity, no reallocation) and sets
the cursor to `0`; with `zeroOut = true` exactly the bytes below the old
cursor become zero while bytes at or beyond it are untouched; with
`zeroOut = false` the store is byte-for-byte unchanged. -/
theorem C4_reset (b : ResizableBuffer) (hInv : Inv b) (zo : Bool) :
    (Reset b zo).offset = 0 ∧
    (Reset b zo).buffer.length = b.buffer.length ∧
    (∀ i, i < b.offset → (Reset b true).buffer.getD i 0 = 0) ∧
    (∀ i, b.offset ≤ i → (Reset b zo).buffer.getD i 0 = b.buffer.getD i 0) ∧
    (Reset b false).buffer = b.buffer :=
  ⟨Reset_offset b zo, Reset_length b zo,
   fun i hi => Reset_true_zero b hInv i hi,
   fun i hi => Reset_beyond b hInv zo i hi,
   Reset_false_buffer b⟩

/-- Witness for C4: resetting `⟨[5, 6, 7], 2⟩` with zeroing zeroes bytes 0
and 1 and keeps byte 2. -/
theorem C4_reset_witness :
    Inv ({ buffer := [5, 6, 7], offset := 2 } : ResizableBuffer) ∧
    (Reset { buffer := [5, 6, 7], offset := 2 } true).offset = 0 ∧
    (Reset { buffer := [5, 6, 7], offset := 2 } true).buffer.getD 0 0 = 0 ∧
    (Reset { buffer := [5, 6, 7], offset := 2 } true).buffer.getD 2 0 = 7 := by
  have h := C4_reset { buffer := [5, 6, 7], offset := 2 } (by decide) true
  refine ⟨by decide, h.1, h.2.2.1 0 (by decide), ?_⟩
  rw [h.2.2.2.1 2 (by decide)]
  decide

/-- C5: `ReadInto` returns the reader's error value unchanged, together
with the chunk of the `k` bytes the reader actually produced (also
readable back from the new store at the old cursor), and the cursor
advances by exactly `k` — in the error and the success case alike. -/
theorem C5_readinto_error (ε : Type) (b : ResizableBuffer)
    (r : Nat → List Nat × Option ε) (m : Int) (hInv : Inv b)
    (hk : (r (readBound b m)).1.length ≤ readBound b m) :
    (ReadInto b r m).1.2 = (r (readBound b m)).2 ∧
    (ReadInto b r m).1.1 = (r (readBound b m)).1 ∧
    (ReadInto b r m).2.offset = b.offset + (r (readBound b m)).1.length ∧
    (ReadInto b r m).1.1 =
      ((ReadInto b r m).2.buffer.drop b.offset).take
        (r (readBound b m)).1.length := by
  by_cases hm : m > 0
  · simp only [readBound, if_pos hm] at hk ⊢
    rw [ReadInto_pos_eq b r m hm hInv hk]
    have hsp : b.offset + (r m.toNat).1.length ≤
        (ensureCapacity b m.toNat).buffer.length := by
      have := ensureCapacity_spare b m.toNat hInv
      omega
    exact ⟨rfl, rfl, rfl, (writeAt_chunk _ _ _ hsp).symm⟩
  · simp only [readBound, if_neg hm] at hk ⊢
    rw [ReadInto_nonpos_eq b r m hm hInv hk]
    unfold Inv at hInv
    exact ⟨rfl, rfl, rfl,
      (writeAt_chunk b.buffer b.offset
        (r (b.buffer.length - b.offset)).1 (by omega)).symm⟩

/-- Witness for C5: a reader that produces one byte and an error value
passes the error through unchanged and still advances the cursor by 1. -/
theorem C5_readinto_error_witness :
    (ReadInto { buffer := [1, 2, 3], offset := 1 }
      (fun _ => ([9], (some 42 : Option Nat))) 1).1.2 = some 42 ∧
    (ReadInto { buffer := [1, 2, 3], offset := 1 }
      (fun _ => ([9], (some 42 : Option Nat))) 1).2.offset = 2 := by
  have h := C5_readinto_error Nat { buffer := [1, 2, 3], offset := 1 }
    (fun _ => ([9], (some 42 : Option Nat))) 1 (by decide) (by decide)
  exact ⟨h.1, h.2.2.1⟩

/-- C6: with `maxSize ≤ 0`, `ReadInto` does not grow: the capacity is
kept, the bound handed to the reader is exactly the spare tail capacity
`C - cursor`, and the store outside the filled region is unchanged.  With
`maxSize > 0`, capacity for `maxSize` more bytes is ensured first (per the
tail-grow rule) and the reader is handed exactly `maxSize`. -/
theorem C6_readinto_bound (ε : Type) (b : ResizableBuffer)
    (r : Nat → List Nat × Option ε) (m : Int) (hInv : Inv b)
    (hk : (r (readBound b m)).1.length ≤ readBound b m) :
    (¬(m > 0) →
      (ReadInto b r m).2.buffer.length = b.buffer.length ∧
      readBound b m = b.buffer.length - b.offset ∧
      (ReadInto b r m).2.buffer.take b.offset = b.buffer.take b.offset ∧
      (ReadInto b r m).2.buffer.drop
          (b.offset + (r (readBound b m)).1.length) =
        b.buffer.drop (b.offset + (r (readBound b m)).1.length)) ∧
    (m > 0 →
      readBound b m = m.toNat ∧
      (b.offset + m.toNat ≤ b.buffer.length →
        ensureCapacity b m.toNat = b ∧
        (ReadInto b r m).2.buffer.length = b.buffer.length) ∧
      (b.buffer.length < b.offset + m.toNat →
        (ReadInto b r m).2.buffer.length = m.toNat + b.buffer.length)) := by
  constructor
  · intro hm
    simp only [readBound, if_neg hm] at hk ⊢
    rw [ReadInto_nonpos_eq b r m hm hInv hk]
    unfold Inv at hInv
    exact ⟨writeAt_length _ _ _, trivial,
      writeAt_prefix b.buffer b.offset
        (r (b.buffer.length - b.offset)).1 (by omega),
      writeAt_suffix b.buffer b.offset
        (r (b.buffer.length - b.offset)).1 (by omega)⟩
  · intro hm
    simp only [readBound, if_pos hm] at hk ⊢
    rw [ReadInto_pos_eq b r m hm hInv hk]
    refine ⟨trivial, ?_, ?_⟩
    · intro hfit
      refine ⟨ensureCapacity_of_le b m.toNat hfit, ?_⟩
      rw [writeAt_length, ensureCapacity_length, if_neg (by omega)]
    · intro hgrow
      rw [writeAt_length, ensureCapacity_length, if_pos hgrow]

/-- Witness for C6: `maxSize = -1` on `⟨[1, 2, 3], 1⟩` bounds the read by
the two spare bytes and keeps the capacity at 3. -/
theorem C6_readinto_bound_witness :
    readBound ({ buffer := [1, 2, 3], offset := 1 } : ResizableBuffer) (-1)
      = 2 ∧
    (ReadInto { buffer := [1, 2, 3], offset := 1 }
      (fun _ => ([9], (none : Option Nat))) (-1)).2.buffer.length = 3 := by
  have h := C6_readinto_bound Nat { buffer := [1, 2, 3], offset := 1 }
    (fun _ => ([9], (none : Option Nat))) (-1) (by decide) (by decide)
  have h2 := h.1 (by decide)
  exact ⟨h2.2.1, h2.1⟩

/-- C7: `SubBuffer` ensures spare capacity for the requested length,
returns a view of exactly that many bytes starting at the parent's cursor
with its own cursor `0`, and advances the parent's cursor by the length;
a negative request means the spare tail capacity at creation time, and
then no growth happens. -/
theorem C7_subbuffer (b : ResizableBuffer) (L : Int) (hInv : Inv b) :
    (SubBuffer b L).1.offset = 0 ∧
    (0 ≤ L →
      (SubBuffer b L).1.buffer.length = L.toNat ∧
      (SubBuffer b L).2.offset = b.offset + L.toNat ∧
      (SubBuffer b L).1.buffer =
        ((SubBuffer b L).2.buffer.drop b.offset).take L.toNat) ∧
    (L < 0 →
      ensureCapacity b (b.buffer.length - b.offset) = b ∧
      (SubBuffer b L).1.buffer = b.buffer.drop b.offset ∧
      (SubBuffer b L).1.buffer.length = b.buffer.length - b.offset ∧
      (SubBuffer b L).2.buffer = b.buffer ∧
      (SubBuffer b L).2.offset = b.offset + (b.buffer.length - b.offset)) := by
  refine ⟨?_, ?_, ?_⟩
  · by_cases hL : L < 0
    · rw [SubBuffer_neg_eq b L hL hInv]
    · rw [SubBuffer_nonneg_eq b L hL]
  · intro hL
    rw [SubBuffer_nonneg_eq b L (not_lt.mpr hL)]
    refine ⟨?_, rfl, rfl⟩
    have hsp := ensureCapacity_spare b L.toNat hInv
    simp
    omega
  · intro hL
    rw [SubBuffer_neg_eq b L hL hInv]
    unfold Inv at hInv
    exact ⟨ensureCapacity_of_le _ _ (by omega), rfl, by simp, rfl,
      show b.buffer.length = b.offset + (b.buffer.length - b.offset) by omega⟩

/-- Witness for C7: a 2-byte sub-buffer of `⟨[1, 2, 3, 4], 1⟩` is the
window `[2, 3]` with cursor 0, and the parent cursor moves to 3; a
negative request yields the whole 3-byte spare tail. -/
theorem C7_subbuffer_witness :
    (SubBuffer { buffer := [1, 2, 3, 4], offset := 1 } 2).1.offset = 0 ∧
    (SubBuffer { buffer := [1, 2, 3, 4], offset := 1 } 2).1.buffer.length
      = 2 ∧
    (SubBuffer { buffer := [1, 2, 3, 4], offset := 1 } 2).2.offset = 3 ∧
    (SubBuffer { buffer := [1, 2, 3, 4], offset := 1 } (-1)).1.buffer.length
      = 3 := by
  have h2 := C7_subbuffer { buffer := [1, 2, 3, 4], offset := 1 } 2
    (by decide)
  have hneg := C7_subbuffer { buffer := [1, 2, 3, 4], offset := 1 } (-1)
    (by decide)
  exact ⟨h2.1, (h2.2.1 (by decide)).1, (h2.2.1 (by decide)).2.1,
    (hneg.2.2 (by decide)).2.2.1⟩

/-- C8: when the spare tail capacity covers the prepended length (the
no-reallocation branch), the whole current store — all `C` bytes,
including the unused tail beyond the cursor — is shifted right by `n`
positions in place (the last `n` bytes fall off), the store's length is
unchanged, and the `n` new bytes are then written at `storage[0:n]`. -/
theorem C8_prepend_shift (b : ResizableBuffer) (v : List Nat)
    (hInv : Inv b) (hsp : b.offset + v.length ≤ b.buffer.length) :
    (PrependBytes b v).buffer.length = b.buffer.length ∧
    (∀ i, v.length + i < b.buffer.length →
      (PrependBytes b v).buffer.getD (v.length + i) 0 = b.buffer.getD i 0) ∧
    (PrependBytes b v).buffer.take v.length = v := by
  unfold Inv at hInv
  have hb : PrependBytes b v =
      { buffer := v ++ b.buffer.take (b.buffer.length - v.length),
        offset := b.offset + v.length } := by
    rw [PrependBytes_eq, prependStart_spec b v hInv, if_neg (by omega)]
  rw [hb]
  refine ⟨by simp; omega, ?_, List.take_left' rfl⟩
  intro i hi
  show (v ++ b.buffer.take (b.buffer.length - v.length)).getD
    (v.length + i) 0 = b.buffer.getD i 0
  rw [List.getD_eq_getElem?_getD, List.getD_eq_getElem?_getD,
    List.getElem?_append, if_neg (by omega),
    show v.length + i - v.length = i from by omega,
    List.getElem?_take, if_pos (by omega)]

/-- Witness for C8: prepending `[9]` onto `⟨[1, 2, 3, 4], 1⟩` (spare 3)
keeps length 4, moves old byte 1 to position 2, and puts `9` first. -/
theorem C8_prepend_shift_witness :
    (PrependBytes { buffer := [1, 2, 3, 4], offset := 1 } [9]).buffer.length
      = 4 ∧
    (PrependBytes { buffer := [1, 2, 3, 4], offset := 1 } [9]).buffer.getD
      (1 + 1) 0 = 2 ∧
    (PrependBytes { buffer := [1, 2, 3, 4], offset := 1 } [9]).buffer.take 1
      = [9] := by
  have h := C8_prepend_shift { buffer := [1, 2, 3, 4], offset := 1 } [9]
    (by decide) (by decide)
  exact ⟨h.1, (h.2.1 1 (by decide)).trans (by decide), h.2.2⟩

/-- C9: the cursor never exceeds the store's length: creation — empty or
from caller-supplied bytes (which become spare capacity, not content) —
starts with cursor `0`, empty logical content, and `Len 0`; and every
operation preserves the invariant. -/
theorem C9_invariant (ob : Option (List Nat)) (b : ResizableBuffer)
    (hInv : Inv b) :
    Inv (NewResizableBuffer ob) ∧
    (NewResizableBuffer ob).offset = 0 ∧
    Len (NewResizableBuffer ob) = 0 ∧
    Bytes (NewResizableBuffer ob) = [] ∧
    (∀ l, (NewResizableBuffer (some l)).buffer = l) ∧
    (NewResizableBuffer none).buffer = [] ∧
    Bytes b = b.buffer.take b.offset ∧
    (∀ p, Inv (CopyBytes b p)) ∧
    (∀ p, Inv (CopyString b p)) ∧
    (∀ bt, Inv (Byte b bt)) ∧
    Inv (CRLF b) ∧
    (∀ v le, Inv (Uint16 b v le)) ∧
    (∀ v le, Inv (Uint32 b v le)) ∧
    (∀ v le, Inv (Uint64 b v le)) ∧
    (∀ v le, Inv (Int16 b v le)) ∧
    (∀ v le, Inv (Int32 b v le)) ∧
    (∀ v le, Inv (Int64 b v le)) ∧
    (∀ bits le, Inv (Float32bitsWrite b bits le)) ∧
    (∀ bits le, Inv (Float64bitsWrite b bits le)) ∧
    (∀ v, Inv (PrependBytes b v)) ∧
    (∀ v, Inv (PrependString b v)) ∧
    (∀ a, Inv (PrependByte b a)) ∧
    (∀ v le, Inv (PrependUint16 b v le)) ∧
    (∀ v le, Inv (PrependUint32 b v le)) ∧
    (∀ v le, Inv (PrependUint64 b v le)) ∧
    (∀ v le, Inv (PrependInt16 b v le)) ∧
    (∀ v le, Inv (PrependInt32 b v le)) ∧
    (∀ v le, Inv (PrependInt64 b v le)) ∧
    (∀ bits le, Inv (PrependFloat32bits b bits le)) ∧
    (∀ bits le, Inv (PrependFloat64bits b bits le)) ∧
    (∀ zo, Inv (Reset b zo)) ∧
    (∀ (ε : Type) (r : Nat → List Nat × Option ε) (m : Int),
      (r (readBound b m)).1.length ≤ readBound b m →
      Inv (ReadInto b r m).2) ∧
    (∀ L, Inv (SubBuffer b L).1 ∧ Inv (SubBuffer b L).2) := by
  refine ⟨Nat.zero_le _, rfl, rfl, rfl, fun l => rfl, rfl, rfl,
    fun p => ?_, fun p => ?_, fun bt => ?_, ?_,
    fun v le => ?_, fun v le => ?_, fun v le => ?_,
    fun v le => ?_, fun v le => ?_, fun v le => ?_,
    fun bits le => ?_, fun bits le => ?_,
    fun v => ?_, fun v => ?_, fun a => ?_,
    fun v le => ?_, fun v le => ?_, fun v le => ?_,
    fun v le => ?_, fun v le => ?_, fun v le => ?_,
    fun bits le => ?_, fun bits le => ?_,
    fun zo => ?_, fun ε r m hk => ?_, fun L => ?_⟩
  · rw [CopyBytes_eq]; exact appendBytes_inv b p hInv
  · rw [CopyString_eq]; exact appendBytes_inv b p hInv
  · rw [Byte_eq]; exact appendBytes_inv b [bt] hInv
  · rw [CRLF_eq]; exact appendBytes_inv b [13, 10] hInv
  · rw [Uint16_eq]; exact appendBytes_inv b (putUint16 le v) hInv
  · rw [Uint32_eq]; exact appendBytes_inv b (putUint32 le v) hInv
  · rw [Uint64_eq]; exact appendBytes_inv b (putUint64 le v) hInv
  · show Inv (Uint16 b (toUint16 v) le)
    rw [Uint16_eq]; exact appendBytes_inv b _ hInv
  · show Inv (Uint32 b (toUint32 v) le)
    rw [Uint32_eq]; exact appendBytes_inv b _ hInv
  · show Inv (Uint64 b (toUint64 v) le)
    rw [Uint64_eq]; exact appendBytes_inv b _ hInv
  · show Inv (Uint32 b bits le)
    rw [Uint32_eq]; exact appendBytes_inv b _ hInv
  · show Inv (Uint64 b bits le)
    rw [Uint64_eq]; exact appendBytes_inv b _ hInv
  · rw [PrependBytes_eq]; exact prependWrite_inv b v hInv
  · rw [PrependString_eq]; exact prependWrite_inv b v hInv
  · rw [PrependByte_eq]; exact prependWrite_inv b [a] hInv
  · rw [PrependUint16_eq]; exact prependWrite_inv b (putUint16 le v) hInv
  · rw [PrependUint32_eq]; exact prependWrite_inv b (putUint32 le v) hInv
  · rw [PrependUint64_eq]; exact prependWrite_inv b (putUint64 le v) hInv
  · show Inv (PrependUint16 b (toUint16 v) le)
    rw [PrependUint16_eq]; exact prependWrite_inv b _ hInv
  · show Inv (PrependUint32 b (toUint32 v) le)
    rw [PrependUint32_eq]; exact prependWrite_inv b _ hInv
  · show Inv (PrependUint64 b (toUint64 v) le)
    rw [PrependUint64_eq]; exact prependWrite_inv b _ hInv
  · show Inv (PrependUint32 b bits le)
    rw [PrependUint32_eq]; exact prependWrite_inv b _ hInv
  · show Inv (PrependUint64 b bits le)
    rw [PrependUint64_eq]; exact prependWrite_inv b _ hInv
  · unfold Inv
    rw [Reset_offset]
    exact Nat.zero_le _
  · by_cases hm : m > 0
    · simp only [readBound, if_pos hm] at hk
      rw [ReadInto_pos_eq b r m hm hInv hk]
      show b.offset + (r m.toNat).1.length ≤
        (writeAt (ensureCapacity b m.toNat).buffer b.offset
          (r m.toNat).1).length
      rw [writeAt_length]
      have := ensureCapacity_spare b m.toNat hInv
      omega
    · simp only [readBound, if_neg hm] at hk
      rw [ReadInto_nonpos_eq b r m hm hInv hk]
      show b.offset + (r (b.buffer.length - b.offset)).1.length ≤
        (writeAt b.buffer b.offset
          (r (b.buffer.length - b.offset)).1).length
      rw [writeAt_length]
      unfold Inv at hInv
      omega
  · by_cases hL : L < 0
    · rw [SubBuffer_neg_eq b L hL hInv]
      exact ⟨Nat.zero_le _, le_rfl⟩
    · rw [SubBuffer_nonneg_eq b L hL]
      refine ⟨Nat.zero_le _, ?_⟩
      show b.offset + L.toNat ≤ (ensureCapacity b L.toNat).buffer.length
      exact ensureCapacity_spare b L.toNat hInv

/-- Witness for C9 at a concrete creation and a concrete append. -/
theorem C9_invariant_witness :
    Inv ({ buffer := [1, 2, 3], offset := 1 } : ResizableBuffer) ∧
    Bytes (NewResizableBuffer (some [1, 2])) = [] ∧
    Inv (CopyBytes { buffer := [1, 2, 3], offset := 1 } [5, 5, 5]) := by
  have h := C9_invariant (some [1, 2]) { buffer := [1, 2, 3], offset := 1 }
    (by decide)
  exact ⟨by decide, h.2.2.2.1, h.2.2.2.2.2.2.2.1 [5, 5, 5]⟩

/-- C10: appending or prepending zero bytes (empty or nil slice, empty
string) leaves the buffer precisely unchanged: same cursor, same
capacity, no reallocation, every byte intact. -/
theorem C10_empty_write_noop (b : ResizableBuffer) (hInv : Inv b) :
    CopyBytes b [] = b ∧ CopyString b [] = b ∧
    PrependBytes b [] = b ∧ PrependString b [] = b := by
  have hofle : b.offset + ([] : List Nat).length ≤ b.buffer.length := by
    unfold Inv at hInv
    simp
    omega
  have happ : appendBytes b [] = b := by
    show ResizableBuffer.mk
      (writeAt (ensureCapacity b ([] : List Nat).length).buffer
        (ensureCapacity b ([] : List Nat).length).offset [])
      ((ensureCapacity b ([] : List Nat).length).offset +
        ([] : List Nat).length) = b
    rw [ensureCapacity_of_le b ([] : List Nat).length hofle, writeAt_nil]
    simp
  have hpre : prependStart b ([] : List Nat).length
      (fun buf => writeAt buf 0 []) = b := by
    rw [prependStart_spec b [] hInv, if_neg (by simp at hofle ⊢; omega)]
    simp [List.take_length]
  exact ⟨happ, happ, by rw [PrependBytes_eq]; exact hpre,
    by rw [PrependString_eq]; exact hpre⟩

/-- Witness for C10 at `⟨[1, 2, 3], 2⟩`. -/
theorem C10_empty_write_noop_witness :
    CopyBytes { buffer := [1, 2, 3], offset := 2 } [] =
      { buffer := [1, 2, 3], offset := 2 } ∧
    PrependBytes { buffer := [1, 2, 3], offset := 2 } [] =
      { buffer := [1, 2, 3], offset := 2 } := by
  have h := C10_empty_write_noop { buffer := [1, 2, 3], offset := 2 }
    (by decide)
  exact ⟨h.1, h.2.2.1⟩

end SafeBuffer
